import Mathlib

set_option maxHeartbeats 1000000
set_option maxRecDepth 4000

/-!
Shallow embedding of the ETL container core (memory strategies, sorted
engine, pool allocator, FIFO iterator, vector-base proxy) and proofs of
the specified properties.

Machine integers (`size_type`, `uint32_t`) are modelled as `Nat`, with an
explicit `% 2 ^ 32` where the source relies on wrap-around. Addresses are
modelled as abstract `Nat` identities. Element storage is modelled as a
`List`; the proxy's `size` is the list length (the source's `setSize`
calls always re-establish exactly that value).
-/

/-- Outcome channel of an operation: the configurable violation hook of
the library is modelled as a `Signal` value returned alongside the new
state. An operation that never invokes the hook always returns `ok`. -/
inductive Signal where
  | ok : Signal
  | capacityExceeded : Signal
  deriving Repr, DecidableEq

/-- `AVectorBase::Proxy`: data location, current capacity, current size
(src/Base/AVectorBase.cpp and its header). The data location is an
abstract address, `none` standing for `nullptr`. -/
structure Proxy where
  dataAddr : Option Nat
  capacity : Nat
  size : Nat
  deriving Repr, DecidableEq

/-- `AVectorBase::swap` (src/Base/AVectorBase.cpp, lines 29-40): copies
`proxy` into a temporary, overwrites the three fields from `other`, then
writes the temporary's three fields into `other`. Modelled as a pure
function from the two proxies to the two resulting proxies. -/
def AVectorBase.swap (p other : Proxy) : Proxy × Proxy :=
  let tmpProxy : Proxy := p
  let p' : Proxy :=
    { dataAddr := other.dataAddr, capacity := other.capacity, size := other.size }
  let other' : Proxy :=
    { dataAddr := tmpProxy.dataAddr, capacity := tmpProxy.capacity, size := tmpProxy.size }
  (p', other')

/-- The `StaticSized<C>` memory strategy (src/include/etl/base/MemStrategies.h,
lines 59-119): an externally allocated buffer address and a fixed capacity,
both immutable after construction. -/
structure StaticSized where
  data : Nat
  capacity : Nat
  deriving Repr, DecidableEq

/-- A contiguous container state as the memory strategies see it: the
proxy's data location and capacity plus the element storage. The proxy's
`size` is `content.length`. -/
structure VecState (α : Type) where
  dataAddr : Option Nat
  capacity : Nat
  content : List α
  deriving Repr, DecidableEq

/-- `StaticSized<C>::setupData` (MemStrategies.h lines 150-159): when
`length <= capacity` the proxy is pointed at the fixed buffer and its
capacity set; otherwise the body is `// TODO throw;` - nothing happens and
nothing is signalled. The returned `Signal` is the violation channel. -/
def StaticSized.setupData (s : StaticSized) (cont : VecState α) (length : Nat) :
    VecState α × Signal :=
  if length ≤ s.capacity then
    ({ cont with dataAddr := some s.data, capacity := s.capacity }, Signal.ok)
  else
    (cont, Signal.ok)

/-- `StaticSized<C>::reserveExactly` (MemStrategies.h line 84): delegates to
`setupData`. -/
def StaticSized.reserveExactly (s : StaticSized) (cont : VecState α) (length : Nat) :
    VecState α × Signal :=
  s.setupData cont length

/-- `StaticSized<C>::reserve` (MemStrategies.h line 88): delegates to
`setupData`. -/
def StaticSized.reserve (s : StaticSized) (cont : VecState α) (length : Nat) :
    VecState α × Signal :=
  s.setupData cont length

/-- `StaticSized<C>::resizeWithInserter` (MemStrategies.h lines 122-148):
when `length <= capacity` the proxy is rebound, trailing elements are
constructed (here: the inserter's fill value `ins`) or destroyed, and the
size is set to `length`; when `length > capacity` the whole body is
skipped - the request is ignored and nothing is signalled. -/
def StaticSized.resizeWithInserter (s : StaticSized) (cont : VecState α)
    (length : Nat) (ins : α) : VecState α × Signal :=
  if length ≤ s.capacity then
    let c1 : VecState α := { cont with dataAddr := some s.data, capacity := s.capacity }
    if length > c1.content.length then
      ({ c1 with content := c1.content ++ List.replicate (length - c1.content.length) ins },
       Signal.ok)
    else if length < c1.content.length then
      ({ c1 with content := c1.content.take length }, Signal.ok)
    else
      (c1, Signal.ok)
  else
    (cont, Signal.ok)

/-- `StaticSized<C>::handle` (MemStrategies.h lines 110-112): the address of
the bound external buffer. -/
def StaticSized.handle (s : StaticSized) : Nat :=
  s.data

/-- `DynamicSized<C,A,UA>::getRoundedLength` (MemStrategies.h lines 239-242):
`(length + (ROUND_STEP - 1)) & ~(ROUND_STEP - 1)` with `ROUND_STEP = 8`,
i.e. rounding up to a multiple of 8; in exact arithmetic this is
`(length + 7) - ((length + 7) % 8)`. -/
def getRoundedLength (length : Nat) : Nat :=
  (length + 7) - (length + 7) % 8

/-- The dynamically sized container state: capacity plus element storage.
The data address is existentially owned by the allocator and never
inspected by the claims, so it is omitted; `allocate` (MemStrategies.h
lines 317-331) establishes `capacity = len` whenever the allocation
succeeds (and `capacity = 0 = len` for `len = 0`), which is what
`reallocateAndCopyFor` relies on below. -/
structure DynState (α : Type) where
  capacity : Nat
  content : List α
  deriving Repr, DecidableEq

/-- `DynamicSized<C,A,UA>::reallocateAndCopyFor` (MemStrategies.h lines
292-314): allocates a buffer of `len` (new capacity `len`), move-constructs
`min len size` elements into it, destroys and frees the old range. -/
def DynamicSized.reallocateAndCopyFor (cont : DynState α) (len : Nat) : DynState α :=
  { capacity := len, content := cont.content.take (min len cont.content.length) }

/-- `DynamicSized<C,A,UA>::reserveExactly` (MemStrategies.h lines 246-252):
reallocates only when `length > capacity`. -/
def DynamicSized.reserveExactly (cont : DynState α) (length : Nat) : DynState α :=
  if length > cont.capacity then DynamicSized.reallocateAndCopyFor cont length else cont

/-- `DynamicSized<C,A,UA>::reserve` (MemStrategies.h lines 187-193): when
`length > capacity`, grows to `getRoundedLength (max length (2 * capacity))`
via `reserveExactly`. -/
def DynamicSized.reserve (cont : DynState α) (length : Nat) : DynState α :=
  if length > cont.capacity then
    DynamicSized.reserveExactly cont (getRoundedLength (max length (2 * cont.capacity)))
  else
    cont

/-- `DynamicSized<C,A,UA>::shrinkToFit` (MemStrategies.h lines 255-261). -/
def DynamicSized.shrinkToFit (cont : DynState α) : DynState α :=
  if cont.capacity > cont.content.length then
    DynamicSized.reallocateAndCopyFor cont cont.content.length
  else
    cont

/-- `DynamicSized<C,A,UA>::resizeWithInserter` (MemStrategies.h lines
264-289): when growing past the capacity it calls
`reallocateAndCopyFor(cont, getRoundedLength(length))` directly (not
`reserve`), then constructs the missing trailing elements (the inserter's
fill value `ins`); when shrinking it destroys the trailing elements; in
all cases `setSize(length)` runs last. -/
def DynamicSized.resizeWithInserter (cont : DynState α) (length : Nat) (ins : α) :
    DynState α :=
  if length > cont.content.length then
    let c1 : DynState α :=
      if length > cont.capacity then
        DynamicSized.reallocateAndCopyFor cont (getRoundedLength length)
      else
        cont
    { c1 with content := c1.content ++ List.replicate (length - c1.content.length) ins }
  else if length < cont.content.length then
    { cont with content := cont.content.take length }
  else
    cont

/-- A `DynamicSized<C,A,UA>` strategy instance, reduced to the identity
(address) of its owned allocator member `A allocator`
(MemStrategies.h line 177). -/
structure DynInstance where
  allocatorAddr : Nat
  deriving Repr, DecidableEq

/-- The address of the function-local `static const int h` inside
`getHandle<false>` (MemStrategies.h lines 223-227): one process-wide
constant per instantiation, shared by every instance. -/
def sharedHandleAddr : Nat :=
  0

/-- `DynamicSized<C,A,UA>::handle` (MemStrategies.h lines 212-227): with
`UNIQUE_ALLOCATOR` (`ua`) true it returns the address of the instance's
own allocator member; with `ua` false it returns the address of the
function-local static `h`, the same for every instance. -/
def DynInstance.handle (ua : Bool) (inst : DynInstance) : Nat :=
  if ua then inst.allocatorAddr else sharedHandleAddr

/-- Modelled from the spec: `Sorted<C>::findSortedPosition` lives in
src/Base/Sorted.h, which is not part of the provided sources; only its
callers are. Every in-source caller (`Map::insertOrAssign`, `Map::erase`,
`Map::find`, `Map::getItem` in src/Map.h) steps the returned position back
by one (`--found.first`) before touching the matched item, and the spec's
multi-key clause places equal keys at the end of their run, so the binary
search is the upper bound of `key`: the returned position is the first
position whose key is greater than `key`, and the match flag tests the
item just before that position. On a maintained-sorted sequence the upper
bound is the length of the longest prefix of keys `≤ key`. -/
def findSortedPosition (keyOf : α → Nat) (k : Nat) (l : List α) : Nat × Bool :=
  let pre := l.takeWhile (fun x => decide (keyOf x ≤ k))
  (pre.length,
   match pre.getLast? with
   | some x => decide (keyOf x = k)
   | none => false)

/-- A second definition following the claim's words, for comparison only:
lower-bound position (first position whose key is not less than `key`)
with the match flag testing the item at the returned position itself. -/
def findSortedPositionClaimed (keyOf : α → Nat) (k : Nat) (l : List α) : Nat × Bool :=
  let pos := (l.takeWhile (fun x => decide (keyOf x < k))).length
  (pos,
   match l[pos]? with
   | some x => decide (keyOf x = k)
   | none => false)

/-- `Sorted<C>::insertTo(pos, item)`: insert `item` in front of position
`pos` (modelled from the spec; the list operation behind the in-source
callers' `insertTo(found.first, item)`). -/
def insertTo (pos : Nat) (item : α) (l : List α) : List α :=
  l.take pos ++ item :: l.drop pos

/-- Modelled from the spec: `Sorted<C>::insertUnique` (src/Base/Sorted.h,
missing; `Map::insert` in src/Map.h delegates to it): compute
`findSortedPosition`; on a match insert nothing and flag failure,
otherwise insert at the returned position. -/
def insertUnique (keyOf : α → Nat) (item : α) (l : List α) : List α × Bool :=
  let fs := findSortedPosition keyOf (keyOf item) l
  if fs.2 then (l, false) else (insertTo fs.1 item l, true)

/-- `Map::find` (src/Map.h lines 170-180): on an exact match return the
iterator stepped back by one, else the end sentinel (`none`). The `Signal`
component is the violation channel; the source body contains no call into
it, so it is always `ok`. -/
def Map.find (m : List (Nat × β)) (k : Nat) : Option (Nat × β) × Signal :=
  let found := findSortedPosition Prod.fst k m
  if found.2 then (m[found.1 - 1]?, Signal.ok) else (none, Signal.ok)

/-- `Map::erase(key)` (src/Map.h lines 159-167): on an exact match erase
the item one before the returned position, else do nothing. Always `ok` on
the violation channel (the source body contains no call into it). -/
def Map.erase (m : List (Nat × β)) (k : Nat) : List (Nat × β) × Signal :=
  let found := findSortedPosition Prod.fst k m
  if found.2 then (m.eraseIdx (found.1 - 1), Signal.ok) else (m, Signal.ok)

/-- `Map::insertOrAssign` (src/Map.h lines 138-156): on a miss insert at
the returned position; on a match assign the element of the item one
before the returned position; the returned flag is negated
(`true` = inserted). -/
def Map.insertOrAssign (m : List (Nat × β)) (k : Nat) (e : β) :
    List (Nat × β) × Bool :=
  let found := findSortedPosition Prod.fst k m
  if found.2 then
    (m.set (found.1 - 1) (k, e), false)
  else
    (insertTo found.1 (k, e) m, true)

/-- `Map::find` built instead on `findSortedPositionClaimed`, i.e. on the
claim's reading of the search: the decrement in src/Map.h applied to a
lower-bound position. For comparison only. -/
def Map.findViaClaimed (m : List (Nat × β)) (k : Nat) : Option (Nat × β) :=
  let found := findSortedPositionClaimed Prod.fst k m
  if found.2 then m[found.1 - 1]? else none

/-- Modelled from the spec: the pool allocator (src/PoolAllocator.h is not
part of the provided sources; only the test src/Test/testList.cpp is).
Fixed capacity `N`, intrusive free list of released slot indices (LIFO),
and a count of ever-claimed slots. -/
structure PoolAllocator where
  capacity : Nat
  freeList : List Nat
  claimed : Nat
  deriving Repr, DecidableEq

/-- Modelled from the spec: `acquire()` pops the free-list head when
non-empty, otherwise claims the next never-used slot by bumping the
counter, and fails (`none`, the `PoolExhausted` outcome) once the free
list is empty and the claim counter has reached the capacity. -/
def PoolAllocator.acquire (p : PoolAllocator) : Option (Nat × PoolAllocator) :=
  match p.freeList with
  | i :: rest => some (i, { p with freeList := rest })
  | [] =>
    if p.claimed < p.capacity then
      some (p.claimed, { p with claimed := p.claimed + 1 })
    else
      none

/-- Modelled from the spec: `release(addr)` pushes the slot back onto the
free list (LIFO). -/
def PoolAllocator.release (p : PoolAllocator) (i : Nat) : PoolAllocator :=
  { p with freeList := i :: p.freeList }

/-- A pooled node-based container's insert, as exercised by the test
`Etl::Pooled::List<> test / Allocate all` (src/Test/testList.cpp lines
291-302): acquire a node first; on pool exhaustion return the end sentinel
(`none`) without constructing a payload or touching the contents;
otherwise construct the element in the acquired slot. -/
def pooledInsert (p : PoolAllocator) (content : List α) (x : α) :
    PoolAllocator × List α × Option Nat :=
  match p.acquire with
  | none => (p, content, none)
  | some (slot, p') => (p', content ++ [x], some slot)

/-- Modelled from the spec: `FifoIndexing` (src/Base/FifoIndexing.h is not
part of the provided sources), the ring index translator: the physical
slot for logical offset `i` is `(frontPhysical + i) % capacity`. -/
structure FifoIndexing where
  capacity : Nat
  frontPhysical : Nat
  deriving Repr, DecidableEq

/-- `FifoIndexing::getIndexFromFront` as used by the iterator
(src/Base/AFifoIterator.h line 96): logical-to-physical translation. -/
def FifoIndexing.getIndexFromFront (f : FifoIndexing) (ix : Nat) : Nat :=
  (f.frontPhysical + ix) % f.capacity

/-- `FifoIterator<T>` (src/Base/AFifoIterator.h): the base class stores a
`uint32_t` logical offset `ix` and a pointer to the `FifoIndexing`
translator; the derived class adds the element-storage base pointer
`data`. Pointers are abstract addresses. -/
structure FifoIterator where
  ix : Nat
  fifo : Nat
  data : Nat
  deriving Repr, DecidableEq

/-- `AFifoIterator::operator==` (AFifoIterator.h lines 46-48): compares
the logical offset and the translator pointer; `data` plays no role. -/
def FifoIterator.beq (a b : FifoIterator) : Bool :=
  a.ix == b.ix && a.fifo == b.fifo

/-- `AFifoIterator::operator++` (AFifoIterator.h lines 54-57): `++ix` on a
`uint32_t`, wrapping modulo `2 ^ 32`; `fifo` and `data` untouched. -/
def FifoIterator.incr (a : FifoIterator) : FifoIterator :=
  { a with ix := (a.ix + 1) % 2 ^ 32 }

/-- `AFifoIterator::operator--` (AFifoIterator.h lines 65-68): `--ix` on a
`uint32_t`, wrapping modulo `2 ^ 32`; `fifo` and `data` untouched. -/
def FifoIterator.decr (a : FifoIterator) : FifoIterator :=
  { a with ix := (a.ix + (2 ^ 32 - 1)) % 2 ^ 32 }

/-- `FifoIterator<T>::get` (AFifoIterator.h lines 138-140):
`data + fifo->getIndexFromFront(ix)`, the translation performed at access
time through the stored translator pointer; `env` maps a translator
address to the translator it designates. -/
def FifoIterator.get (env : Nat → FifoIndexing) (a : FifoIterator) : Nat :=
  a.data + (env a.fifo).getIndexFromFront a.ix

section SortedEngineLemmas

variable {α β : Type}

theorem etl_mem_of_getElem? {l : List α} {i : Nat} {x : α} (h : l[i]? = some x) :
    x ∈ l := by
  have hi : i < l.length := by
    by_contra hc
    simp [List.getElem?_eq_none (Nat.le_of_not_lt hc)] at h
  rw [List.getElem?_eq_getElem hi] at h
  cases h
  exact List.getElem_mem _

theorem etl_mem_of_getLast? {l : List α} {y : α} (h : l.getLast? = some y) :
    y ∈ l := by
  obtain ⟨hne, rfl⟩ := List.mem_getLast?_eq_getLast (l := l) (x := y) (by rw [h]; rfl)
  exact List.getLast_mem hne

theorem etl_mem_takeWhile_pred (p : α → Bool) :
    ∀ (l : List α) (x : α), x ∈ l.takeWhile p → p x = true := by
  intro l
  induction l with
  | nil => intro x hx; cases hx
  | cons a t ih =>
    intro x hx
    by_cases hp : p a
    · rw [List.takeWhile_cons, if_pos hp] at hx
      rcases List.mem_cons.mp hx with rfl | hxt
      · exact hp
      · exact ih x hxt
    · rw [List.takeWhile_cons, if_neg hp] at hx
      cases hx

theorem etl_take_takeWhile_length (p : α → Bool) (l : List α) :
    l.take (l.takeWhile p).length = l.takeWhile p := by
  induction l with
  | nil => rfl
  | cons a t ih =>
    by_cases hp : p a
    · simp [List.takeWhile_cons, hp, ih]
    · simp [List.takeWhile_cons, hp]

theorem etl_drop_takeWhile_length (p : α → Bool) (l : List α) :
    l.drop (l.takeWhile p).length = l.dropWhile p := by
  induction l with
  | nil => rfl
  | cons a t ih =>
    by_cases hp : p a
    · simp [List.takeWhile_cons, List.dropWhile_cons, hp, ih]
    · simp [List.takeWhile_cons, List.dropWhile_cons, hp]

theorem etl_takeWhile_append_of_all (p : α → Bool) {A : List α} (B : List α)
    (h : ∀ a ∈ A, p a = true) :
    (A ++ B).takeWhile p = A ++ B.takeWhile p := by
  induction A with
  | nil => rfl
  | cons a t ih =>
    have ha : p a = true := h a (by simp)
    simp only [List.cons_append, List.takeWhile_cons, ha, if_true]
    rw [ih (fun x hx => h x (by simp [hx]))]

theorem etl_takeWhile_dropWhile (p : α → Bool) (l : List α) :
    (l.dropWhile p).takeWhile p = [] := by
  induction l with
  | nil => rfl
  | cons a t ih =>
    by_cases hp : p a
    · simp [List.dropWhile_cons, hp, ih]
    · simp [List.dropWhile_cons, List.takeWhile_cons, hp]

theorem etl_eraseIdx_append_cons (A : List α) (b : α) (B : List α) :
    (A ++ b :: B).eraseIdx A.length = A ++ B := by
  induction A with
  | nil => rfl
  | cons a t ih => simp [List.eraseIdx, ih]

theorem etl_dropLast_append_getLast {l : List α} {y : α} (h : l.getLast? = some y) :
    l.dropLast ++ [y] = l := by
  have hne : l ≠ [] := by
    intro hnil
    rw [hnil] at h
    cases h
  obtain ⟨hne', rfl⟩ := List.mem_getLast?_eq_getLast (l := l) (x := y) (by rw [h]; rfl)
  exact List.dropLast_append_getLast hne'

theorem etl_dropWhile_gt_of_sorted (keyOf : α → Nat) (k : Nat) {l : List α}
    (hl : l.Pairwise (fun a b => keyOf a ≤ keyOf b)) :
    ∀ x ∈ l.dropWhile (fun x => decide (keyOf x ≤ k)), k < keyOf x := by
  induction l with
  | nil => intro x hx; cases hx
  | cons a t ih =>
    rw [List.pairwise_cons] at hl
    by_cases hp : keyOf a ≤ k
    · intro x hx
      rw [List.dropWhile_cons] at hx
      simp only [decide_eq_true hp] at hx
      exact ih hl.2 x hx
    · intro x hx
      rw [List.dropWhile_cons] at hx
      simp only [decide_eq_false hp] at hx
      rcases List.mem_cons.mp hx with rfl | hxt
      · exact Nat.lt_of_not_le hp
      · exact Nat.lt_of_lt_of_le (Nat.lt_of_not_le hp) (hl.1 x hxt)

theorem etl_getLast_max_of_pairwise {q : α → α → Prop} :
    ∀ {l : List α}, l.Pairwise q → ∀ {y : α}, l.getLast? = some y →
      ∀ x ∈ l, x = y ∨ q x y
  | [], _, _, h, _, hx => by cases h
  | [a], _, _, h, x, hx => by
    rcases List.mem_singleton.mp hx with rfl
    cases h
    exact Or.inl rfl
  | a :: b :: t, hp, y, h, x, hx => by
    rw [List.pairwise_cons] at hp
    have h' : (b :: t).getLast? = some y := by
      rw [← h]
      rfl
    rcases List.mem_cons.mp hx with rfl | hxt
    · exact Or.inr (hp.1 y (etl_mem_of_getLast? h'))
    · exact etl_getLast_max_of_pairwise hp.2 h' x hxt

end SortedEngineLemmas

section FindSortedPositionLemmas

variable {α β : Type}

theorem etl_fsp_le_before (keyOf : α → Nat) (k : Nat) (l : List α) :
    ∀ i < (findSortedPosition keyOf k l).1, ∀ x, l[i]? = some x → keyOf x ≤ k := by
  intro i hi x hx
  have hpos : (findSortedPosition keyOf k l).1
      = (l.takeWhile (fun x => decide (keyOf x ≤ k))).length := rfl
  rw [hpos] at hi
  have hx' : (l.takeWhile (fun x => decide (keyOf x ≤ k)))[i]? = some x := by
    rw [← etl_take_takeWhile_length (fun x => decide (keyOf x ≤ k)) l,
      List.getElem?_take, if_pos hi]
    exact hx
  have hxmem : x ∈ l.takeWhile (fun x => decide (keyOf x ≤ k)) :=
    etl_mem_of_getElem? hx'
  exact of_decide_eq_true (etl_mem_takeWhile_pred (fun x => decide (keyOf x ≤ k)) l x hxmem)

theorem etl_fsp_gt_from (keyOf : α → Nat) (k : Nat) {l : List α}
    (hl : l.Pairwise (fun a b => keyOf a ≤ keyOf b)) :
    ∀ i, (findSortedPosition keyOf k l).1 ≤ i → ∀ x, l[i]? = some x → k < keyOf x := by
  intro i hi x hx
  have hpos : (findSortedPosition keyOf k l).1
      = (l.takeWhile (fun x => decide (keyOf x ≤ k))).length := rfl
  rw [hpos] at hi
  have hx' : (l.dropWhile (fun x => decide (keyOf x ≤ k)))[i
      - (l.takeWhile (fun x => decide (keyOf x ≤ k))).length]? = some x := by
    rw [← etl_drop_takeWhile_length (fun x => decide (keyOf x ≤ k)) l,
      List.getElem?_drop, Nat.add_sub_cancel' hi]
    exact hx
  exact etl_dropWhile_gt_of_sorted keyOf k hl x (etl_mem_of_getElem? hx')

theorem etl_fsp_exact_iff (keyOf : α → Nat) (k : Nat) {l : List α}
    (hl : l.Pairwise (fun a b => keyOf a ≤ keyOf b)) :
    (findSortedPosition keyOf k l).2 = true ↔ ∃ x ∈ l, keyOf x = k := by
  have hmem : ∀ x ∈ l, keyOf x = k → x ∈ l.takeWhile (fun x => decide (keyOf x ≤ k)) := by
    intro x hxl hxk
    rcases List.mem_append.mp
        ((List.takeWhile_append_dropWhile (fun x => decide (keyOf x ≤ k)) l) ▸ hxl) with
      h | h
    · exact h
    · exact absurd hxk (Nat.ne_of_gt (etl_dropWhile_gt_of_sorted keyOf k hl x h))
  have hex : (findSortedPosition keyOf k l).2
      = match (l.takeWhile (fun x => decide (keyOf x ≤ k))).getLast? with
        | some x => decide (keyOf x = k)
        | none => false := rfl
  cases hcase : (l.takeWhile (fun x => decide (keyOf x ≤ k))).getLast? with
  | none =>
    have hfalse : (findSortedPosition keyOf k l).2 = false := by
      rw [hex, hcase]
    rw [hfalse]
    refine iff_of_false (by decide) ?_
    rintro ⟨x, hxl, hxk⟩
    have hxp := hmem x hxl hxk
    rw [List.getLast?_eq_none_iff.mp hcase] at hxp
    cases hxp
  | some y =>
    rw [hex, hcase]
    simp only [decide_eq_true_eq]
    have hymem : y ∈ l.takeWhile (fun x => decide (keyOf x ≤ k)) :=
      etl_mem_of_getLast? hcase
    constructor
    · intro hy
      exact ⟨y, (List.takeWhile_sublist _).mem hymem, hy⟩
    · rintro ⟨x, hxl, hxk⟩
      have hxpre := hmem x hxl hxk
      have hyk : keyOf y ≤ k :=
        of_decide_eq_true (etl_mem_takeWhile_pred (fun x => decide (keyOf x ≤ k)) l y hymem)
      have hpre : (l.takeWhile (fun x => decide (keyOf x ≤ k))).Pairwise
          (fun a b => keyOf a ≤ keyOf b) := hl.sublist (List.takeWhile_sublist _)
      rcases etl_getLast_max_of_pairwise hpre hcase x hxpre with rfl | hle
      · exact hxk
      · exact Nat.le_antisymm hyk (hxk ▸ hle)

theorem etl_fsp_exact_at_pred (keyOf : α → Nat) (k : Nat) (l : List α)
    (h : (findSortedPosition keyOf k l).2 = true) :
    ∃ y, l[(findSortedPosition keyOf k l).1 - 1]? = some y ∧ keyOf y = k := by
  have hex : (findSortedPosition keyOf k l).2
      = match (l.takeWhile (fun x => decide (keyOf x ≤ k))).getLast? with
        | some x => decide (keyOf x = k)
        | none => false := rfl
  have hpos : (findSortedPosition keyOf k l).1
      = (l.takeWhile (fun x => decide (keyOf x ≤ k))).length := rfl
  cases hcase : (l.takeWhile (fun x => decide (keyOf x ≤ k))).getLast? with
  | none =>
    rw [hex, hcase] at h
    cases h
  | some y =>
    rw [hex, hcase] at h
    refine ⟨y, ?_, of_decide_eq_true h⟩
    have hne : l.takeWhile (fun x => decide (keyOf x ≤ k)) ≠ [] := by
      intro hnil
      rw [hnil] at hcase
      cases hcase
    have hlen : 0 < (l.takeWhile (fun x => decide (keyOf x ≤ k))).length :=
      List.length_pos.mpr hne
    have h1 : (l.take (l.takeWhile (fun x => decide (keyOf x ≤ k))).length)[(l.takeWhile
        (fun x => decide (keyOf x ≤ k))).length - 1]?
        = l[(l.takeWhile (fun x => decide (keyOf x ≤ k))).length - 1]? := by
      rw [List.getElem?_take]
      exact if_pos (Nat.sub_lt hlen Nat.one_pos)
    rw [hpos, ← h1, etl_take_takeWhile_length, ← List.getLast?_eq_getElem?]
    exact hcase

end FindSortedPositionLemmas

section InsertEraseLemmas

variable {α β : Type}

theorem etl_insertUnique_sorted (keyOf : α → Nat) (item : α) {l : List α}
    (hl : l.Pairwise (fun a b => keyOf a < keyOf b)) :
    ((insertUnique keyOf item l).1).Pairwise (fun a b => keyOf a < keyOf b) := by
  have hle : l.Pairwise (fun a b => keyOf a ≤ keyOf b) :=
    hl.imp (fun hab => Nat.le_of_lt hab)
  cases hcase : (findSortedPosition keyOf (keyOf item) l).2 with
  | true => simpa [insertUnique, hcase] using hl
  | false =>
    have hres : (insertUnique keyOf item l).1
        = insertTo (findSortedPosition keyOf (keyOf item) l).1 item l := by
      simp [insertUnique, hcase]
    rw [hres]
    have hpos : (findSortedPosition keyOf (keyOf item) l).1
        = (l.takeWhile (fun x => decide (keyOf x ≤ keyOf item))).length := rfl
    have htake := etl_take_takeWhile_length (fun x => decide (keyOf x ≤ keyOf item)) l
    have hdrop := etl_drop_takeWhile_length (fun x => decide (keyOf x ≤ keyOf item)) l
    have hins : insertTo (findSortedPosition keyOf (keyOf item) l).1 item l
        = (l.takeWhile (fun x => decide (keyOf x ≤ keyOf item)))
          ++ item :: (l.dropWhile (fun x => decide (keyOf x ≤ keyOf item))) := by
      rw [insertTo, hpos, htake, hdrop]
    rw [hins]
    have hnoeq : ∀ x ∈ l, keyOf x ≠ keyOf item := by
      intro x hx hxk
      have : (findSortedPosition keyOf (keyOf item) l).2 = true :=
        (etl_fsp_exact_iff keyOf (keyOf item) hle).mpr ⟨x, hx, hxk⟩
      rw [hcase] at this
      cases this
    have hpre_lt : ∀ x ∈ l.takeWhile (fun x => decide (keyOf x ≤ keyOf item)),
        keyOf x < keyOf item := by
      intro x hx
      have hxle : keyOf x ≤ keyOf item :=
        of_decide_eq_true
          (etl_mem_takeWhile_pred (fun x => decide (keyOf x ≤ keyOf item)) l x hx)
      exact Nat.lt_of_le_of_ne hxle (hnoeq x ((List.takeWhile_sublist _).mem hx))
    have hsuf_gt : ∀ x ∈ l.dropWhile (fun x => decide (keyOf x ≤ keyOf item)),
        keyOf item < keyOf x :=
      etl_dropWhile_gt_of_sorted keyOf (keyOf item) hle
    refine List.pairwise_append.mpr ⟨hl.sublist (List.takeWhile_sublist _), ?_, ?_⟩
    · rw [List.pairwise_cons]
      exact ⟨hsuf_gt, hl.sublist (List.dropWhile_sublist _)⟩
    · intro a ha b hb
      rcases List.mem_cons.mp hb with rfl | hbs
      · exact hpre_lt a ha
      · exact Nat.lt_trans (hpre_lt a ha) (hsuf_gt b hbs)

theorem etl_insertUnique_present (keyOf : α → Nat) (item : α) {l : List α}
    (hl : l.Pairwise (fun a b => keyOf a ≤ keyOf b))
    (hmem : ∃ x ∈ l, keyOf x = keyOf item) :
    insertUnique keyOf item l = (l, false) := by
  have hcase : (findSortedPosition keyOf (keyOf item) l).2 = true :=
    (etl_fsp_exact_iff keyOf (keyOf item) hl).mpr hmem
  simp [insertUnique, hcase]

theorem etl_map_erase_absent (k : Nat) {m : List (Nat × β)}
    (hm : m.Pairwise (fun a b => a.1 ≤ b.1))
    (habs : ¬ ∃ e ∈ m, e.1 = k) :
    Map.erase m k = (m, Signal.ok) := by
  cases hcase : (findSortedPosition Prod.fst k m).2 with
  | false => simp [Map.erase, hcase]
  | true => exact absurd ((etl_fsp_exact_iff Prod.fst k hm).mp hcase) habs

theorem etl_fsp_snd_eq (keyOf : α → Nat) (k : Nat) (l : List α) :
    (findSortedPosition keyOf k l).2
      = match (l.takeWhile (fun x => decide (keyOf x ≤ k))).getLast? with
        | some x => decide (keyOf x = k)
        | none => false := rfl

theorem etl_fsp_fst_eq (keyOf : α → Nat) (k : Nat) (l : List α) :
    (findSortedPosition keyOf k l).1
      = (l.takeWhile (fun x => decide (keyOf x ≤ k))).length := rfl

theorem etl_eraseIdx_eq (l : List α) (i : Nat) :
    l.eraseIdx i = l.take i ++ l.drop (i + 1) := by
  induction l generalizing i with
  | nil => cases i <;> rfl
  | cons a t ih =>
    cases i with
    | zero => rfl
    | succ j => simp [List.eraseIdx, ih]

theorem etl_mem_take {l : List α} {n : Nat} {x : α} (h : x ∈ l.take n) :
    ∃ i, i < n ∧ l[i]? = some x := by
  induction l generalizing n with
  | nil => rw [List.take_nil] at h; cases h
  | cons a t ih =>
    cases n with
    | zero => cases h
    | succ j =>
      rw [List.take_succ_cons] at h
      rcases List.mem_cons.mp h with rfl | hxt
      · exact ⟨0, Nat.succ_pos _, by rw [List.getElem?_cons_zero]⟩
      · obtain ⟨i, hi, hget⟩ := ih hxt
        exact ⟨i + 1, Nat.succ_lt_succ hi, by rw [List.getElem?_cons_succ]; exact hget⟩

theorem etl_lt_length_of_getElem? {l : List α} {i : Nat} {x : α}
    (h : l[i]? = some x) : i < l.length := by
  by_contra hc
  simp [List.getElem?_eq_none (Nat.le_of_not_lt hc)] at h

theorem etl_getElem_of_getElem? {l : List α} {i : Nat} {x : α}
    (h : l[i]? = some x) : ∃ hi : i < l.length, l[i] = x := by
  have hi := etl_lt_length_of_getElem? h
  rw [List.getElem?_eq_getElem hi] at h
  exact ⟨hi, Option.some.inj h⟩

theorem etl_map_find_after_erase (k : Nat) {m : List (Nat × β)}
    (hm : m.Pairwise (fun a b => a.1 < b.1)) :
    (Map.find (Map.erase m k).1 k).1 = none := by
  have hle : m.Pairwise (fun a b : Nat × β => a.1 ≤ b.1) :=
    hm.imp (fun hab => Nat.le_of_lt hab)
  cases hcase : (findSortedPosition Prod.fst k m).2 with
  | false =>
    have herase : (Map.erase m k).1 = m := by simp [Map.erase, hcase]
    rw [herase]
    simp [Map.find, hcase]
  | true =>
    have herase : (Map.erase m k).1
        = m.eraseIdx ((findSortedPosition Prod.fst k m).1 - 1) := by
      simp [Map.erase, hcase]
    obtain ⟨y, hy, hyk⟩ := etl_fsp_exact_at_pred Prod.fst k m hcase
    have hpos1 : 1 ≤ (findSortedPosition Prod.fst k m).1 := by
      rw [etl_fsp_snd_eq] at hcase
      cases hlast : (m.takeWhile (fun x => decide (x.1 ≤ k))).getLast? with
      | none => rw [hlast] at hcase; cases hcase
      | some e =>
        have hne : m.takeWhile (fun x => decide (x.1 ≤ k)) ≠ [] := by
          intro hnil
          rw [hnil] at hlast
          cases hlast
        rw [etl_fsp_fst_eq]
        exact List.length_pos.mpr hne
    have hnok : ∀ x ∈ (Map.erase m k).1, x.1 ≠ k := by
      intro x hx
      rw [herase, etl_eraseIdx_eq] at hx
      rcases List.mem_append.mp hx with hx1 | hx2
      · obtain ⟨i, hi, hget⟩ := etl_mem_take hx1
        obtain ⟨hiL, hieq⟩ := etl_getElem_of_getElem? hget
        obtain ⟨hjL, hjeq⟩ := etl_getElem_of_getElem? hy
        have hij : i < (findSortedPosition Prod.fst k m).1 - 1 := hi
        have hR := (List.pairwise_iff_getElem.mp hm) i
          ((findSortedPosition Prod.fst k m).1 - 1) hiL hjL hij
        rw [hieq, hjeq] at hR
        rw [hyk] at hR
        exact Nat.ne_of_lt hR
      · rw [Nat.sub_add_cancel hpos1, etl_fsp_fst_eq,
          etl_drop_takeWhile_length] at hx2
        exact Nat.ne_of_gt (etl_dropWhile_gt_of_sorted Prod.fst k hle x hx2)
    have hsorted : ((Map.erase m k).1).Pairwise (fun a b : Nat × β => a.1 ≤ b.1) := by
      rw [herase]
      exact hle.sublist (List.eraseIdx_sublist _ _)
    have hfind : (findSortedPosition Prod.fst k ((Map.erase m k).1)).2 = false := by
      cases hf : (findSortedPosition Prod.fst k ((Map.erase m k).1)).2 with
      | false => rfl
      | true =>
        obtain ⟨x, hxmem, hxk⟩ := (etl_fsp_exact_iff Prod.fst k hsorted).mp hf
        exact absurd hxk (hnok x hxmem)
    simp [Map.find, hfind]

theorem etl_map_signals_ok (k : Nat) (m : List (Nat × β)) :
    (Map.erase m k).2 = Signal.ok ∧ (Map.find m k).2 = Signal.ok := by
  constructor
  · rw [Map.erase]
    split <;> rfl
  · rw [Map.find]
    split <;> rfl

end InsertEraseLemmas

section RoundingLemmas

theorem etl_getRoundedLength_ge (length : Nat) : length ≤ getRoundedLength length := by
  have h7 : (length + 7) % 8 ≤ 7 := Nat.le_of_lt_succ (Nat.mod_lt _ (by decide))
  calc length = length + 7 - 7 := by omega
    _ ≤ (length + 7) - (length + 7) % 8 := by omega

theorem etl_getRoundedLength_mod (length : Nat) : getRoundedLength length % 8 = 0 := by
  have hdm := Nat.div_add_mod (length + 7) 8
  have : getRoundedLength length = 8 * ((length + 7) / 8) := by
    rw [getRoundedLength]
    omega
  rw [this]
  exact Nat.mul_mod_right 8 _

end RoundingLemmas

/-- C10: `AVectorBase::swap` exchanges exactly the two storage proxies'
{data, capacity, size} field triples - after the call each proxy holds
precisely the other's previous triple - and swapping the same pair twice
restores both proxies to their original state (involution). -/
theorem c10_swap_exchanges_and_involutive (a b : Proxy) :
    (AVectorBase.swap a b).1 = b ∧ (AVectorBase.swap a b).2 = a ∧
      AVectorBase.swap (AVectorBase.swap a b).1 (AVectorBase.swap a b).2 = (a, b) :=
  ⟨rfl, rfl, rfl⟩

/-- C9: with `UNIQUE_ALLOCATOR == false`, `DynamicSized::handle` returns
the same process-wide constant address for every strategy instance (so
`handle()` equality never distinguishes two such instances); with
`UNIQUE_ALLOCATOR == true` it returns the address of the instance's own
allocator member (distinguishing instances with distinct allocators); the
fixed strategy's `handle()` returns the address of its bound external
buffer. -/
theorem c9_handle_identity (a b : DynInstance) (s : StaticSized) :
    DynInstance.handle false a = DynInstance.handle false b ∧
      DynInstance.handle true a = a.allocatorAddr ∧
      (a.allocatorAddr ≠ b.allocatorAddr →
        DynInstance.handle true a ≠ DynInstance.handle true b) ∧
      StaticSized.handle s = s.data :=
  ⟨rfl, rfl, fun h => h, rfl⟩

/-- C9 witness: two instances holding allocators at addresses 1 and 2 get
distinct handles under `UNIQUE_ALLOCATOR == true`. -/
theorem c9_handle_identity_witness :
    DynInstance.handle true ⟨1⟩ ≠ DynInstance.handle true ⟨2⟩ :=
  (c9_handle_identity ⟨1⟩ ⟨2⟩ ⟨0, 4⟩).2.2.1 (by decide)

/-- C8: the FIFO iterator's increment and decrement change only the
logical offset (translator reference and data base untouched), two
iterators compare equal iff they reference the same translator and hold
the same logical offset - the physical data address plays no role in the
comparison - and dereference performs the logical-to-physical translation
through the stored translator at access time. -/
theorem c8_fifo_iterator_logical (a b : FifoIterator) (d : Nat)
    (env : Nat → FifoIndexing) :
    (a.incr.ix = (a.ix + 1) % 2 ^ 32 ∧ a.incr.fifo = a.fifo ∧ a.incr.data = a.data) ∧
      (a.decr.ix = (a.ix + (2 ^ 32 - 1)) % 2 ^ 32 ∧ a.decr.fifo = a.fifo ∧
        a.decr.data = a.data) ∧
      (FifoIterator.beq a b = true ↔ a.ix = b.ix ∧ a.fifo = b.fifo) ∧
      FifoIterator.beq { a with data := d } b = FifoIterator.beq a b ∧
      FifoIterator.get env a = a.data + (env a.fifo).getIndexFromFront a.ix := by
  refine ⟨⟨?_, ?_, ?_⟩, ⟨?_, ?_, ?_⟩, ?_, ?_, ?_⟩
  · rw [FifoIterator.incr]
  · rw [FifoIterator.incr]
  · rw [FifoIterator.incr]
  · rw [FifoIterator.decr]
  · rw [FifoIterator.decr]
  · rw [FifoIterator.decr]
  · simp [FifoIterator.beq]
  · rw [FifoIterator.beq, FifoIterator.beq]
  · rw [FifoIterator.get]

/-- C1: the claim states that a growth request with `len > C` on the fixed
strategy signals `CapacityExceeded`; the code's signalling site is the
unimplemented `// TODO throw;` in `StaticSized::setupData`, so with fixed
capacity 4 a request of 5 through `reserveExactly`, `reserve` or `resize`
leaves the container untouched and reports `ok` - silently ignored, not
signalled. -/
theorem c1_static_overflow_silent :
    StaticSized.reserveExactly ⟨100, 4⟩ (⟨some 100, 4, [0, 0]⟩ : VecState Nat) 5
        = (⟨some 100, 4, [0, 0]⟩, Signal.ok) ∧
      StaticSized.reserve ⟨100, 4⟩ (⟨some 100, 4, [0, 0]⟩ : VecState Nat) 5
        = (⟨some 100, 4, [0, 0]⟩, Signal.ok) ∧
      StaticSized.resizeWithInserter ⟨100, 4⟩ (⟨some 100, 4, [0, 0]⟩ : VecState Nat) 5 7
        = (⟨some 100, 4, [0, 0]⟩, Signal.ok) :=
  ⟨rfl, rfl, rfl⟩

/-- C4: `DynamicSized::reserve` with `n > c` sets the capacity to exactly
`roundUp8 (max n (2 c))` and leaves everything unchanged when `n ≤ c`;
from capacity 0, after `reserve n` with `n > 0` the capacity is `≥ n` and
divisible by 8. -/
theorem c4_dynamic_reserve_growth {α : Type} (st : DynState α) (n : Nat) :
    (n > st.capacity →
      (DynamicSized.reserve st n).capacity
        = getRoundedLength (max n (2 * st.capacity))) ∧
      (n ≤ st.capacity → DynamicSized.reserve st n = st) ∧
      (st.capacity = 0 → 0 < n →
        n ≤ (DynamicSized.reserve st n).capacity ∧
          (DynamicSized.reserve st n).capacity % 8 = 0) := by
  refine ⟨?_, ?_, ?_⟩
  · intro h
    have hmax : st.capacity < max n (2 * st.capacity) :=
      Nat.lt_of_lt_of_le h (Nat.le_max_left _ _)
    have hround : st.capacity < getRoundedLength (max n (2 * st.capacity)) :=
      Nat.lt_of_lt_of_le hmax (etl_getRoundedLength_ge _)
    rw [DynamicSized.reserve, if_pos h, DynamicSized.reserveExactly, if_pos hround]
    rfl
  · intro h
    rw [DynamicSized.reserve, if_neg (Nat.not_lt.mpr h)]
  · intro hc hn
    have h : n > st.capacity := by omega
    have hmax : st.capacity < max n (2 * st.capacity) :=
      Nat.lt_of_lt_of_le h (Nat.le_max_left _ _)
    have hround : st.capacity < getRoundedLength (max n (2 * st.capacity)) :=
      Nat.lt_of_lt_of_le hmax (etl_getRoundedLength_ge _)
    have h1 : (DynamicSized.reserve st n).capacity
        = getRoundedLength (max n (2 * st.capacity)) := by
      rw [DynamicSized.reserve, if_pos h, DynamicSized.reserveExactly, if_pos hround]
      rfl
    constructor
    · rw [h1, hc]
      simp only [Nat.mul_zero, Nat.max_zero]
      exact etl_getRoundedLength_ge n
    · rw [h1]
      exact etl_getRoundedLength_mod _

/-- C4 witness: from capacity 0, `reserve 5` establishes
`roundUp8 (max 5 0) = 8`; with capacity 8, `reserve 3` changes nothing. -/
theorem c4_dynamic_reserve_growth_witness :
    (DynamicSized.reserve (⟨0, []⟩ : DynState Nat) 5).capacity
        = getRoundedLength (max 5 (2 * 0)) ∧
      DynamicSized.reserve (⟨8, [1]⟩ : DynState Nat) 3 = ⟨8, [1]⟩ ∧
      (5 ≤ (DynamicSized.reserve (⟨0, []⟩ : DynState Nat) 5).capacity ∧
        (DynamicSized.reserve (⟨0, []⟩ : DynState Nat) 5).capacity % 8 = 0) :=
  ⟨(c4_dynamic_reserve_growth ⟨0, []⟩ 5).1 (by decide),
   (c4_dynamic_reserve_growth ⟨8, [1]⟩ 3).2.1 (by decide),
   (c4_dynamic_reserve_growth ⟨0, []⟩ 5).2.2 rfl (by decide)⟩

/-- C3 counterexample: at capacity 16 holding 16 elements, `resize 17`
reallocates to `roundUp8 17 = 24`, while `reserve 17` would establish
`roundUp8 (max 17 32) = 32` - so resize does not grow via `reserve` and
its capacity differs from the claimed `roundUp8 (max len (2 c))`. -/
theorem c3_resize_not_via_reserve :
    (DynamicSized.resizeWithInserter
        (⟨16, List.replicate 16 0⟩ : DynState Nat) 17 0).capacity = 24 ∧
      (DynamicSized.reserve (⟨16, List.replicate 16 0⟩ : DynState Nat) 17).capacity
        = 32 ∧
      getRoundedLength (max 17 (2 * 16)) = 32 := by
  refine ⟨rfl, rfl, rfl⟩

/-- C3 amended: `resize len` with `len > size` grows storage directly to
`roundUp8 len` when `len > capacity` (leaving capacity alone otherwise),
then constructs exactly `len - oldSize` trailing elements; with
`len < size` it destroys exactly the trailing `oldSize - len` elements and
touches nothing else; in every case the size becomes `len`. -/
theorem c3_resize_behavior {α : Type} (st : DynState α) (len : Nat) (d : α) :
    (len > st.content.length →
      (DynamicSized.resizeWithInserter st len d).capacity
          = (if len > st.capacity then getRoundedLength len else st.capacity) ∧
        (DynamicSized.resizeWithInserter st len d).content
          = st.content ++ List.replicate (len - st.content.length) d) ∧
      (len < st.content.length →
        DynamicSized.resizeWithInserter st len d = ⟨st.capacity, st.content.take len⟩) ∧
      (DynamicSized.resizeWithInserter st len d).content.length = len := by
  have hgrow : len > st.content.length →
      (DynamicSized.resizeWithInserter st len d).capacity
          = (if len > st.capacity then getRoundedLength len else st.capacity) ∧
        (DynamicSized.resizeWithInserter st len d).content
          = st.content ++ List.replicate (len - st.content.length) d := by
    intro h
    by_cases hc : len > st.capacity
    · have hlen : st.content.length ≤ getRoundedLength len :=
        Nat.le_trans (Nat.le_of_lt h) (etl_getRoundedLength_ge len)
      have hcontent : (DynamicSized.reallocateAndCopyFor st
          (getRoundedLength len)).content = st.content := by
        rw [DynamicSized.reallocateAndCopyFor]
        simp only [Nat.min_eq_right hlen]
        exact List.take_length _
      rw [DynamicSized.resizeWithInserter]
      rw [if_pos h, if_pos hc, if_pos hc]
      refine ⟨rfl, ?_⟩
      simp only [hcontent]
    · rw [DynamicSized.resizeWithInserter]
      rw [if_pos h, if_neg hc, if_neg hc]
      exact ⟨rfl, rfl⟩
  refine ⟨hgrow, ?_, ?_⟩
  · intro h
    rw [DynamicSized.resizeWithInserter, if_neg (by omega), if_pos h]
  · rcases Nat.lt_trichotomy st.content.length len with h | h | h
    · obtain ⟨hcap, hcon⟩ := hgrow h
      rw [hcon, List.length_append, List.length_replicate]
      omega
    · rw [DynamicSized.resizeWithInserter, if_neg (by omega), if_neg (by omega)]
      exact h
    · rw [DynamicSized.resizeWithInserter, if_neg (by omega), if_pos h]
      simp only [List.length_take]
      omega

/-- C3 witness: growing an empty container to 3 rounds the capacity to 8
and constructs the 3 trailing elements; shrinking `[1, 2, 3]` to 1 keeps
the capacity and drops the trailing two elements. -/
theorem c3_resize_behavior_witness :
    ((DynamicSized.resizeWithInserter (⟨0, []⟩ : DynState Nat) 3 0).capacity
        = (if 3 > 0 then getRoundedLength 3 else 0) ∧
      (DynamicSized.resizeWithInserter (⟨0, []⟩ : DynState Nat) 3 0).content
        = [] ++ List.replicate (3 - List.length ([] : List Nat)) 0) ∧
      DynamicSized.resizeWithInserter (⟨8, [1, 2, 3]⟩ : DynState Nat) 1 0
        = ⟨8, [1, 2, 3].take 1⟩ :=
  ⟨(c3_resize_behavior ⟨0, []⟩ 3 0).1 (by decide),
   (c3_resize_behavior ⟨8, [1, 2, 3]⟩ 1 0).2.1 (by decide)⟩

/-- C5: with every one of the `N` slots in use (empty free list, claim
counter at capacity), `acquire` fails before any payload is constructed,
and the pooled container's insert observes the failure: it returns the end
sentinel (`none`), adds and destroys nothing, and the size stays at `N`. -/
theorem c5_pool_exhausted {α : Type} (p : PoolAllocator) (content : List α) (x : α)
    (hfree : p.freeList = []) (hclaim : p.claimed = p.capacity)
    (hfull : content.length = p.capacity) :
    p.acquire = none ∧ pooledInsert p content x = (p, content, none) ∧
      (pooledInsert p content x).2.1.length = p.capacity := by
  have hacq : p.acquire = none := by
    rw [PoolAllocator.acquire, hfree]
    simp [hclaim]
  have hins : pooledInsert p content x = (p, content, none) := by
    rw [pooledInsert, hacq]
  exact ⟨hacq, hins, by rw [hins]; exact hfull⟩

/-- C5 witness: a pool of capacity 2 with both slots claimed and no free
slot rejects the next acquire, and inserting into the full pooled
container of size 2 returns the end sentinel with the contents intact. -/
theorem c5_pool_exhausted_witness :
    PoolAllocator.acquire ⟨2, [], 2⟩ = none ∧
      pooledInsert ⟨2, [], 2⟩ [10, 20] 30 = (⟨2, [], 2⟩, [10, 20], none) ∧
      (pooledInsert (⟨2, [], 2⟩ : PoolAllocator) [10, 20] 30).2.1.length = 2 :=
  c5_pool_exhausted ⟨2, [], 2⟩ [10, 20] 30 rfl rfl rfl

/-- C2 counterexample: on the sorted sequence `[1, 3, 5]` with key 3,
`findSortedPosition` returns position 2 with an exact match - but the key
at position 2 is 5, not 3 (so the match flag does not test the returned
position), and position 1 already holds a key not less than 3 (so the
position is not the lower bound). Consistently, `Map::find` as written in
src/Map.h (which steps the position back by one) returns the matching
entry `(3, 30)` with these semantics, while under the claim's lower-bound
reading the same decrement would return the wrong entry `(1, 10)`. -/
theorem c2_lower_bound_refuted :
    findSortedPosition id 3 [1, 3, 5] = (2, true) ∧
      ([1, 3, 5] : List Nat)[2]? = some 5 ∧
      ([1, 3, 5] : List Nat)[1]? = some 3 ∧
      (Map.find [(1, 10), (3, 30), (5, 50)] 3).1 = some (3, 30) ∧
      Map.findViaClaimed [(1, 10), (3, 30), (5, 50)] 3 = some (1, 10) := by
  refine ⟨rfl, rfl, rfl, rfl, rfl⟩

/-- C2 amended: on a sorted sequence, `findSortedPosition` has upper-bound
semantics: the returned position is the first position whose key is
greater than the key (every earlier key is `≤`, every key from the
position on is `>`); `exactMatchFound` is true iff an item with an equal
key exists, and when it is true the matching item sits one before the
returned position (which is where the callers in src/Map.h look). -/
theorem c2_upper_bound_semantics {α : Type} (keyOf : α → Nat) (k : Nat) (l : List α)
    (hl : l.Pairwise (fun a b => keyOf a ≤ keyOf b)) :
    (∀ i < (findSortedPosition keyOf k l).1, ∀ x, l[i]? = some x → keyOf x ≤ k) ∧
      (∀ i, (findSortedPosition keyOf k l).1 ≤ i → ∀ x, l[i]? = some x → k < keyOf x) ∧
      ((findSortedPosition keyOf k l).2 = true ↔ ∃ x ∈ l, keyOf x = k) ∧
      ((findSortedPosition keyOf k l).2 = true →
        ∃ y, l[(findSortedPosition keyOf k l).1 - 1]? = some y ∧ keyOf y = k) :=
  ⟨etl_fsp_le_before keyOf k l, etl_fsp_gt_from keyOf k hl,
   etl_fsp_exact_iff keyOf k hl, etl_fsp_exact_at_pred keyOf k l⟩

/-- C2 witness: on `[1, 3, 5]` with key 3 the match is found and the
matching item sits one before the returned position. -/
theorem c2_upper_bound_semantics_witness :
    ∃ y, ([1, 3, 5] : List Nat)[(findSortedPosition id 3 [1, 3, 5]).1 - 1]? = some y ∧
      id y = 3 :=
  (c2_upper_bound_semantics id 3 [1, 3, 5] (by decide)).2.2.2 (by decide)

/-- C6: every sequence of `insertUnique` calls starting from the empty
container yields a strictly sorted (hence duplicate-free) sequence;
`insertUnique` of a key already present changes nothing and reports
`inserted == false`; and inserting the keys 5, 1, 3, 1, 4 in that order
yields exactly `[1, 3, 4, 5]`. -/
theorem c6_insertUnique_invariant :
    (∀ ks : List Nat,
      (ks.foldl (fun l x => (insertUnique id x l).1) []).Pairwise
        (fun a b => a < b)) ∧
      (∀ (l : List Nat) (x : Nat), l.Pairwise (fun a b => a < b) → x ∈ l →
        insertUnique id x l = (l, false)) ∧
      [5, 1, 3, 1, 4].foldl (fun l x => (insertUnique id x l).1) [] = [1, 3, 4, 5] := by
  refine ⟨?_, ?_, by decide⟩
  · intro ks
    have hstep : ∀ (ks : List Nat) (l : List Nat), l.Pairwise (fun a b => a < b) →
        (ks.foldl (fun l x => (insertUnique id x l).1) l).Pairwise
          (fun a b => a < b) := by
      intro ks
      induction ks with
      | nil => intro l hl; exact hl
      | cons a t ih =>
        intro l hl
        rw [List.foldl_cons]
        exact ih _ (etl_insertUnique_sorted id a hl)
    exact hstep ks [] List.Pairwise.nil
  · intro l x hl hx
    exact etl_insertUnique_present id x (hl.imp (fun h => Nat.le_of_lt h)) ⟨x, hx, rfl⟩

/-- C6 witness: inserting the already-present key 3 into `[1, 3, 5]`
changes nothing and reports failure. -/
theorem c6_insertUnique_invariant_witness :
    insertUnique id 3 [1, 3, 5] = ([1, 3, 5], false) :=
  c6_insertUnique_invariant.2.1 [1, 3, 5] 3 (by decide) (by decide)

/-- C7: on a sorted unique-key map, `erase x` followed by `find x` returns
the end sentinel (`none`); erasing an absent key leaves the container
unchanged; and both `find` and `erase` report a key-absent outcome only
through their ordinary return value - the violation channel stays `ok` on
every input. -/
theorem c7_erase_find_roundtrip {β : Type} (m : List (Nat × β)) (k : Nat)
    (hm : m.Pairwise (fun a b => a.1 < b.1)) :
    (Map.find (Map.erase m k).1 k).1 = none ∧
      (¬ (∃ e ∈ m, e.1 = k) → Map.erase m k = (m, Signal.ok)) ∧
      (Map.erase m k).2 = Signal.ok ∧
      (Map.find m k).2 = Signal.ok :=
  ⟨etl_map_find_after_erase k hm,
   fun habs => etl_map_erase_absent k (hm.imp (fun h => Nat.le_of_lt h)) habs,
   (etl_map_signals_ok k m).1, (etl_map_signals_ok k m).2⟩

/-- C7 witness: erasing key 3 from `[(1, 10), (3, 30)]` makes `find 3`
return the end sentinel, and erasing the absent key 7 changes nothing. -/
theorem c7_erase_find_roundtrip_witness :
    (Map.find (Map.erase [(1, 10), (3, 30)] 3).1 3).1 = none ∧
      Map.erase ([(1, 10), (3, 30)] : List (Nat × Nat)) 7
        = ([(1, 10), (3, 30)], Signal.ok) :=
  ⟨(c7_erase_find_roundtrip [(1, 10), (3, 30)] 3 (by decide)).1,
   (c7_erase_find_roundtrip [(1, 10), (3, 30)] 7 (by decide)).2.1 (by decide)⟩
